import Mathlib

/-!
# Verification of the AVANA email-filtration core

Shallow embedding of the extraction–deduplication–grouping–selection
pipeline of `streamlit_app.py` (the block guarded by the "Run Extraction"
button, lines 84–149), together with proofs of the specified properties.

Modelling conventions:
* Python strings are sequences of Unicode code points; we model them as
  `List Char` (`Str` below).  Python `len`, lexicographic comparison and
  substring tests are the corresponding sequence operations.
* Python `str.lower` lower-cases each character; on the ASCII-only strings
  produced by the detector pattern this is exactly `Char.toLower` applied
  pointwise.
* Python `list.sort` / `list.sort(key=len)` is a stable ascending sort.
  Any two stable ascending sorts of the same list under the same total
  preorder agree, so we model both calls with `List.insertionSort`, which
  is stable and structurally recursive (hence computable by `decide`).
* The detector is `re.findall` over the raw text; every property below is
  proved for an arbitrary list `found` of detected strings, which covers
  every raw-text input.
-/

/-- Python strings modelled as lists of Unicode code points. -/
abbrev Str := List Char

/-- Python `s.lower()`: per-character lower-casing (`Char.toLower` is the
ASCII conversion, which agrees with Python on the detector's output). -/
def pyLower (s : Str) : Str := s.map Char.toLower

/-- Python `needle in hay` (substring containment test). -/
def pySubstr (needle : Str) : Str → Bool
  | [] => needle.isEmpty
  | c :: t => needle.isPrefixOf (c :: t) || pySubstr needle t

/-- Python `s.split(sep)` for a one-character separator: the list of
(maximally split) segments, empty segments preserved. -/
def pySplit (sep : Char) : Str → List Str
  | [] => [[]]
  | c :: t =>
    match pySplit sep t with
    | [] => [[]]
    | h :: r => if c = sep then [] :: h :: r else (c :: h) :: r

/-- `email.split('@')[1]` from the grouping loop (line 101); `none` models
the `IndexError` that the `try/except` swallows. -/
def splitDomain (e : Str) : Option Str := (pySplit '@' e)[1]?

/-- `e.split('@')[0]` from the selection loop (line 117); `split` always
returns at least one segment, so indexing at 0 cannot fail. -/
def localPart (e : Str) : Str := (pySplit '@' e).headD []

/-- The dedup loop of lines 88–94: `seen` accumulates lower-cased
addresses; an address is kept (lower-cased) iff its lower-casing has not
been seen. -/
def dedupLoop (seen : List Str) : List Str → List Str
  | [] => []
  | e :: rest =>
    let elow := pyLower e
    if elow ∈ seen then dedupLoop seen rest
    else elow :: dedupLoop (elow :: seen) rest

/-- The deduplicator (`unique_emails` of lines 88–94). -/
def dedup (found : List Str) : List Str := dedupLoop [] found

/-- One step of the grouping loop: append `e` to the group of domain `d`,
creating the group at the end (first-seen domain order) if it is new.
This mirrors `domain_order.append` / `domain_map[domain].append`
(lines 102–104) with the ordered association list carrying both
`domain_order` and `domain_map`. -/
def addToGroup : List (Str × List Str) → Str → Str → List (Str × List Str)
  | [], d, e => [(d, [e])]
  | (d', es) :: rest, d, e =>
    if d' = d then (d', es ++ [e]) :: rest
    else (d', es) :: addToGroup rest d e

/-- The grouping loop of lines 99–106; an entry whose `split('@')` has no
index 1 raises `IndexError`, which is caught and skipped (`continue`). -/
def groupLoop (acc : List (Str × List Str)) : List Str → List (Str × List Str)
  | [] => acc
  | e :: rest =>
    match splitDomain e with
    | none => groupLoop acc rest
    | some d => groupLoop (addToGroup acc d e) rest

/-- The domain grouper: ordered association list `domain → addresses`,
domains in first-seen order, addresses per domain in first-seen order. -/
def groupByDomain (emails : List Str) : List (Str × List Str) := groupLoop [] emails

/-- The keyword test of line 118: `any(k in local_part for k in keywords)`. -/
def isPriority (keywords : List Str) (e : Str) : Bool :=
  keywords.any (fun k => pySubstr k (localPart e))

/-- Ascending-length preorder used by `priority.sort(key=len)` (line 123). -/
def lenLe (a b : Str) : Prop := a.length ≤ b.length

instance : DecidableRel lenLe := fun a b => Nat.decLe a.length b.length

instance : IsTotal Str lenLe := ⟨fun a b => Nat.le_total a.length b.length⟩

instance : IsTrans Str lenLe := ⟨fun _ _ _ => Nat.le_trans⟩

/-- Python lexicographic `≤` on strings: code-point comparison, a proper
prefix is smaller. Used by `others.sort()` (line 124). -/
def strLeB : Str → Str → Bool
  | [], _ => true
  | _ :: _, [] => false
  | a :: as, b :: bs => if a < b then true else if b < a then false else strLeB as bs

/-- Propositional form of `strLeB`. -/
def strLe (a b : Str) : Prop := strLeB a b = true

instance : DecidableRel strLe := fun a b => instDecidableEqBool (strLeB a b) true

/-- Python slice `l[:n]` for an `int` bound `n`: a nonnegative bound takes
a prefix, a negative bound `-k` drops the last `k` elements. -/
def pyTake (n : Int) (l : List α) : List α :=
  if 0 ≤ n then l.take n.toNat else l.take (l.length - (-n).toNat)

/-- A row of `final_selection` (lines 130–135). -/
structure SelRow where
  Domain : Str
  Email : Str
  Typ : String
  deriving DecidableEq

/-- The body of the per-domain selection loop (lines 112–140): partition
into `priority`/`others` (order-preserving, as the Python `for` loop
appends), sort `priority` stably by ascending length and `others`
lexicographically, slice off the first `max_per_domain` entries, tag each
selected address, and keep the rest in original order as skipped. -/
def selectDomain (keywords : List Str) (max_per_domain : Int) (domain : Str)
    (emails : List Str) : List SelRow × List Str :=
  let parts := emails.partition (isPriority keywords)
  let priority := parts.1.insertionSort lenLe
  let others := parts.2.insertionSort strLe
  let top_selection := pyTake max_per_domain (priority ++ others)
  let rows := top_selection.map (fun s =>
    { Domain := domain, Email := s
      Typ := if s ∈ priority then "🎯 Match" else "✉️ General" : SelRow })
  let skipped := emails.filter (fun e => decide (e ∉ top_selection))
  (rows, skipped)

/-- The loop over `domain_order` (lines 112–140), accumulating
`final_selection` and `skipped_emails` across domains in domain order. -/
def runSelection (keywords : List Str) (cap : Int) :
    List (Str × List Str) → List SelRow × List Str
  | [] => ([], [])
  | g :: rest =>
    let r := selectDomain keywords cap g.1 g.2
    let acc := runSelection keywords cap rest
    (r.1 ++ acc.1, r.2 ++ acc.2)

/-- The whole core pipeline on the detector's output `found`:
deduplicate, group by domain, select per domain. -/
def runExtraction (found keywords : List Str) (cap : Int) :
    List SelRow × List Str :=
  runSelection keywords cap (groupByDomain (dedup found))

/-- `len(unique_emails)` (line 147). -/
def uniqueTotal (found : List Str) : Nat := (dedup found).length

/-- `len(final_selection)` (line 148). -/
def selectedCount (found keywords : List Str) (cap : Int) : Nat :=
  (runExtraction found keywords cap).1.length

/-- `len(skipped_emails)` (line 149). -/
def skippedCount (found keywords : List Str) (cap : Int) : Nat :=
  (runExtraction found keywords cap).2.length

/-- `'@' in e`. -/
def hasAt (e : Str) : Bool := e.contains '@'

/-- The spec's description of the deduplicator, applied to the already
lower-cased sequence: keep the first occurrence of each value, drop the
later ones. -/
def firstSeen : List Str → List Str
  | [] => []
  | s :: rest => s :: firstSeen (rest.filter (fun t => decide (t ≠ s)))
termination_by l => l.length
decreasing_by
  simpa using Nat.lt_succ_of_le (List.length_filter_le _ _)

/-- The priority partition of a domain's addresses (lines 116–121),
order-preserving. -/
def priorityPart (keywords : List Str) (emails : List Str) : List Str :=
  emails.filter (isPriority keywords)

/-- The non-priority partition (lines 116–121), order-preserving. -/
def othersPart (keywords : List Str) (emails : List Str) : List Str :=
  emails.filter (not ∘ isPriority keywords)

/-- The candidate slice `top_selection = (priority + others)[:max_per_domain]`
of line 127, after the in-place sorts of lines 123–124. -/
def topSelection (keywords : List Str) (cap : Int) (emails : List Str) : List Str :=
  pyTake cap ((priorityPart keywords emails).insertionSort lenLe ++
    (othersPart keywords emails).insertionSort strLe)

/-- Total number of addresses stored in a list of groups. -/
def groupsSize (gs : List (Str × List Str)) : Nat := (gs.map (fun g => g.2.length)).sum

/-! ## Basic facts about the string model -/

/-- `Char.ofNat` round-trips on code points below the surrogate range. -/
theorem charToNat_ofNat {n : Nat} (h : n < 55296) : (Char.ofNat n).toNat = n := by
  have hv : Nat.isValidChar n := Or.inl h
  rw [Char.ofNat, dif_pos hv]
  rfl

/-- ASCII lower-casing is idempotent. -/
theorem charToLower_idem (c : Char) : c.toLower.toLower = c.toLower := by
  simp only [Char.toLower]
  by_cases h : Char.toNat c ≥ 65 ∧ Char.toNat c ≤ 90
  · simp only [if_pos h]
    have h1 : (Char.ofNat (c.toNat + 32)).toNat = c.toNat + 32 := charToNat_ofNat (by omega)
    rw [if_neg (by rw [h1]; omega)]
  · simp only [if_neg h]

/-- Lower-casing a string is idempotent. -/
theorem pyLower_idem (s : Str) : pyLower (pyLower s) = pyLower s := by
  simp only [pyLower, List.map_map]
  exact List.map_congr_left fun c _ => charToLower_idem c

/-- `split` never returns an empty list of segments. -/
theorem pySplit_ne_nil (sep : Char) (l : Str) : pySplit sep l ≠ [] := by
  induction l with
  | nil => simp [pySplit]
  | cons c t ih =>
    rcases h : pySplit sep t with _ | ⟨h', r⟩
    · exact absurd h ih
    · simp only [pySplit, h]
      by_cases hc : c = sep <;> simp [hc]

/-- Splitting produces one more segment than there are separators. -/
theorem pySplit_length (sep : Char) (l : Str) :
    (pySplit sep l).length = l.count sep + 1 := by
  induction l with
  | nil => simp [pySplit]
  | cons c t ih =>
    rcases h : pySplit sep t with _ | ⟨h', r⟩
    · exact absurd h (pySplit_ne_nil sep t)
    · rw [h] at ih
      by_cases hc : c = sep
      · subst hc
        simp only [pySplit, h, if_pos rfl, List.length_cons, List.count_cons_self]
        simpa using ih
      · simp only [pySplit, h, if_neg hc,
          List.count_cons_of_ne (fun e => hc e.symm), List.length_cons]
        simpa using ih

/-- A string without the separator is a single segment. -/
theorem pySplit_eq_singleton (sep : Char) (l : Str) (h : sep ∉ l) :
    pySplit sep l = [l] := by
  induction l with
  | nil => rfl
  | cons c t ih =>
    simp only [List.mem_cons, not_or] at h
    simp only [pySplit, ih h.2, if_neg (Ne.symm h.1)]

/-- `'@' in e` unfolded to membership. -/
theorem hasAt_iff_mem (e : Str) : hasAt e = true ↔ '@' ∈ e := by
  simp [hasAt, List.contains]

/-- An entry without `@` makes `email.split('@')[1]` raise `IndexError`. -/
theorem splitDomain_eq_none (e : Str) (h : hasAt e = false) : splitDomain e = none := by
  have h' : '@' ∉ e := fun hm => by simp [(hasAt_iff_mem e).mpr hm] at h
  simp [splitDomain, pySplit_eq_singleton '@' e h']

/-- An entry with `@` has a domain segment. -/
theorem splitDomain_isSome (e : Str) (h : hasAt e = true) : (splitDomain e).isSome := by
  have h' : '@' ∈ e := (hasAt_iff_mem e).mp h
  have hc : 1 ≤ e.count '@' := List.count_pos_iff.mpr h'
  have hl : 1 < (pySplit '@' e).length := by rw [pySplit_length]; omega
  simp [splitDomain, List.getElem?_eq_getElem hl]

/-- A grouped entry contains `@`. -/
theorem hasAt_of_splitDomain_some (e : Str) (d : Str) (h : splitDomain e = some d) :
    hasAt e = true := by
  by_contra hc
  rw [splitDomain_eq_none e (by simpa using hc)] at h
  exact Option.noConfusion h

/-- Lower-casing preserves the presence of `@`. -/
theorem hasAt_pyLower (e : Str) (h : hasAt e = true) : hasAt (pyLower e) = true := by
  have h' : '@' ∈ e := (hasAt_iff_mem e).mp h
  have hl : Char.toLower '@' = '@' := by decide
  exact (hasAt_iff_mem _).mpr (hl ▸ List.mem_map_of_mem Char.toLower h')

/-! ## The deduplicator -/

/-- `firstSeen` does not invent or lose values. -/
theorem mem_firstSeen (m : List Str) (t : Str) : t ∈ firstSeen m ↔ t ∈ m := by
  induction m using firstSeen.induct with
  | case1 => simp [firstSeen]
  | case2 s rest ih =>
    rw [firstSeen]
    by_cases ht : t = s
    · simp [ht]
    · simp only [List.mem_cons, ih, List.mem_filter, ht, decide_eq_true_eq, or_false,
        false_or, ne_eq, not_false_iff, and_true]

/-- `firstSeen` returns distinct values. -/
theorem firstSeen_nodup (m : List Str) : (firstSeen m).Nodup := by
  induction m using firstSeen.induct with
  | case1 => simp [firstSeen]
  | case2 s rest ih =>
    rw [firstSeen]
    refine List.nodup_cons.mpr ⟨fun hs => ?_, ih⟩
    have := (mem_firstSeen _ s).mp hs
    simp at this

/-- On a duplicate-free list `firstSeen` is the identity. -/
theorem firstSeen_of_nodup (m : List Str) (h : m.Nodup) : firstSeen m = m := by
  induction m using firstSeen.induct with
  | case1 => simp [firstSeen]
  | case2 s rest ih =>
    rw [firstSeen]
    rcases List.nodup_cons.mp h with ⟨hs, hr⟩
    have hf : rest.filter (fun t => decide (t ≠ s)) = rest :=
      List.filter_eq_self.mpr fun t ht => by
        simp only [decide_eq_true_eq]
        exact fun hts => hs (hts ▸ ht)
    rw [hf] at ih ⊢
    rw [ih hr]

/-- The dedup loop is `firstSeen` on the lower-cased entries not yet seen. -/
theorem dedupLoop_eq_firstSeen (l : List Str) : ∀ seen : List Str,
    dedupLoop seen l = firstSeen ((l.map pyLower).filter (fun t => decide (t ∉ seen))) := by
  induction l with
  | nil => intro seen; simp [dedupLoop, firstSeen]
  | cons e rest ih =>
    intro seen
    by_cases h : pyLower e ∈ seen
    · have hd : decide (pyLower e ∉ seen) = false := by simpa using h
      simp only [dedupLoop, if_pos h, List.map_cons, List.filter_cons, hd,
        Bool.false_eq_true, if_false]
      exact ih seen
    · have hd : decide (pyLower e ∉ seen) = true := by simpa using h
      simp only [dedupLoop, if_neg h, List.map_cons, List.filter_cons, hd, if_true]
      rw [firstSeen, ih (pyLower e :: seen), List.filter_filter]
      congr 1
      congr 1
      apply List.filter_congr
      intro t _
      by_cases h1 : t = pyLower e <;> by_cases h2 : t ∈ seen <;> simp [h1, h2]

/-- The deduplicator is exactly "lower-case, then keep first occurrences". -/
theorem dedup_eq_firstSeen (l : List Str) : dedup l = firstSeen (l.map pyLower) := by
  rw [dedup, dedupLoop_eq_firstSeen]
  congr 1
  exact List.filter_eq_self.mpr fun t _ => by simp

/-- Membership in the deduplicated sequence: exactly the lower-casings of
detected entries. -/
theorem mem_dedup (l : List Str) (s : Str) :
    s ∈ dedup l ↔ ∃ e ∈ l, pyLower e = s := by
  rw [dedup_eq_firstSeen, mem_firstSeen]
  simp [List.mem_map]

/-- The deduplicated sequence has no duplicates. -/
theorem dedup_nodup (l : List Str) : (dedup l).Nodup := by
  rw [dedup_eq_firstSeen]; exact firstSeen_nodup _

/-- Every entry of the deduplicated sequence is already lower-cased. -/
theorem pyLower_of_mem_dedup (l : List Str) (s : Str) (h : s ∈ dedup l) :
    pyLower s = s := by
  rcases (mem_dedup l s).mp h with ⟨e, _, he⟩
  rw [← he, pyLower_idem]

/-! ## Stability of the length sort -/

/-- Inserting an entry of length `n` by ascending length puts it in front
of the entries of length `n` already present. -/
theorem filter_len_orderedInsert_eq (n : Nat) (a : Str) (m : List Str) (ha : a.length = n) :
    (m.orderedInsert lenLe a).filter (fun s => decide (s.length = n)) =
      a :: m.filter (fun s => decide (s.length = n)) := by
  induction m with
  | nil => simp [List.orderedInsert, ha]
  | cons b m ih =>
    simp only [List.orderedInsert]
    by_cases hr : lenLe a b
    · simp [if_pos hr, List.filter_cons, ha]
    · have hb : ¬ b.length = n := by
        simp only [lenLe, not_le] at hr; omega
      simp only [if_neg hr, List.filter_cons, hb, decide_eq_true_eq, if_neg hb, ih]
      simp [ha]

/-- Inserting an entry of a different length leaves the length-`n`
subsequence unchanged. -/
theorem filter_len_orderedInsert_ne (n : Nat) (a : Str) (m : List Str) (ha : ¬ a.length = n) :
    (m.orderedInsert lenLe a).filter (fun s => decide (s.length = n)) =
      m.filter (fun s => decide (s.length = n)) := by
  induction m with
  | nil => simp [List.orderedInsert, ha]
  | cons b m ih =>
    simp only [List.orderedInsert]
    by_cases hr : lenLe a b
    · simp [if_pos hr, List.filter_cons, ha]
    · simp only [if_neg hr, List.filter_cons, ih]

/-- Stability of `priority.sort(key=len)`: for each length, the
subsequence of entries of that length is preserved. -/
theorem filter_len_insertionSort (n : Nat) (l : List Str) :
    (l.insertionSort lenLe).filter (fun s => decide (s.length = n)) =
      l.filter (fun s => decide (s.length = n)) := by
  induction l with
  | nil => rfl
  | cons a l ih =>
    simp only [List.insertionSort]
    by_cases ha : a.length = n
    · rw [filter_len_orderedInsert_eq n a _ ha, ih]
      simp [List.filter_cons, ha]
    · rw [filter_len_orderedInsert_ne n a _ ha, ih]
      simp [List.filter_cons, ha]

/-! ## The selector, unfolded -/

/-- `selectDomain`, written with the named intermediate stages. -/
theorem selectDomain_eq (keywords : List Str) (cap : Int) (d : Str) (es : List Str) :
    selectDomain keywords cap d es =
      ((topSelection keywords cap es).map (fun s =>
        { Domain := d, Email := s
          Typ := if s ∈ (priorityPart keywords es).insertionSort lenLe then "🎯 Match"
            else "✉️ General" : SelRow }),
       es.filter (fun e => decide (e ∉ topSelection keywords cap es))) := by
  simp only [selectDomain, topSelection, priorityPart, othersPart,
    List.partition_eq_filter_filter]

/-- The selected e-mail column is exactly the candidate slice. -/
theorem selectDomain_fst_map_email (keywords : List Str) (cap : Int) (d : Str)
    (es : List Str) :
    (selectDomain keywords cap d es).1.map SelRow.Email = topSelection keywords cap es := by
  rw [selectDomain_eq]
  simp only [List.map_map]
  exact List.map_id _

/-- A Python slice is a sublist. -/
theorem pyTake_sublist (n : Int) (l : List α) : List.Sublist (pyTake n l) l := by
  unfold pyTake; split <;> exact List.take_sublist _ _

/-- Every candidate of the slice is one of the domain's addresses. -/
theorem mem_of_mem_topSelection (keywords : List Str) (cap : Int) (es : List Str)
    (s : Str) (h : s ∈ topSelection keywords cap es) : s ∈ es := by
  rcases List.mem_append.mp ((pyTake_sublist cap _).subset h) with h1 | h1 <;>
    exact List.mem_of_mem_filter ((List.mem_insertionSort _).mp h1)

/-- Python string `≤` is total. -/
theorem strLeB_total : ∀ a b : Str, strLeB a b = true ∨ strLeB b a = true
  | [], _ => Or.inl rfl
  | _ :: _, [] => Or.inr rfl
  | x :: xs, y :: ys => by
    by_cases h1 : x < y
    · left; simp [strLeB, h1]
    · by_cases h2 : y < x
      · right; simp [strLeB, h2]
      · have hxy : x = y := le_antisymm (not_lt.mp h2) (not_lt.mp h1)
        subst hxy
        rcases strLeB_total xs ys with h | h
        · left; simpa [strLeB, lt_irrefl] using h
        · right; simpa [strLeB, lt_irrefl] using h

/-- Python string `≤` is transitive. -/
theorem strLeB_trans : ∀ a b c : Str, strLeB a b = true → strLeB b c = true →
    strLeB a c = true
  | [], _, _, _, _ => rfl
  | _ :: _, [], _, h1, _ => by simp [strLeB] at h1
  | _ :: _, _ :: _, [], _, h2 => by simp [strLeB] at h2
  | x :: xs, y :: ys, z :: zs, h1, h2 => by
    simp only [strLeB] at h1 h2 ⊢
    by_cases hxy : x < y
    · by_cases hyz : y < z
      · simp [lt_trans hxy hyz]
      · by_cases hzy : z < y
        · rw [if_neg hyz, if_pos hzy] at h2; exact absurd h2 (by simp)
        · have : y = z := le_antisymm (not_lt.mp hzy) (not_lt.mp hyz)
          subst this
          simp [hxy]
    · by_cases hyx : y < x
      · rw [if_neg hxy, if_pos hyx] at h1; exact absurd h1 (by simp)
      · have hxy' : x = y := le_antisymm (not_lt.mp hyx) (not_lt.mp hxy)
        subst hxy'
        rw [if_neg (lt_irrefl x), if_neg (lt_irrefl x)] at h1
        by_cases hxz : x < z
        · simp [hxz]
        · by_cases hzx : z < x
          · rw [if_neg hxz, if_pos hzx] at h2; exact absurd h2 (by simp)
          · have : x = z := le_antisymm (not_lt.mp hzx) (not_lt.mp hxz)
            subst this
            rw [if_neg (lt_irrefl x), if_neg (lt_irrefl x)] at h2 ⊢
            exact strLeB_trans xs ys zs h1 h2

/-- A slice with a nonnegative bound is a `take`. -/
theorem pyTake_of_nonneg {n : Int} (h : 0 ≤ n) (l : List α) :
    pyTake n l = l.take n.toNat := by
  simp [pyTake, if_pos h]

/-- The two sorted partitions together carry all of the domain's
addresses. -/
theorem parts_length (keywords : List Str) (es : List Str) :
    ((priorityPart keywords es).insertionSort lenLe ++
      (othersPart keywords es).insertionSort strLe).length = es.length := by
  have hp := (List.filter_append_perm (isPriority keywords) es).length_eq
  simp only [List.length_append, List.length_insertionSort, priorityPart, othersPart]
  simpa using hp

/-- The second component of `selectDomain`: the domain's addresses not in
the candidate slice, in original order. -/
theorem selectDomain_snd (keywords : List Str) (cap : Int) (d : Str) (es : List Str) :
    (selectDomain keywords cap d es).2 =
      es.filter (fun e => decide (e ∉ topSelection keywords cap es)) := by
  rw [selectDomain_eq]

/-! ## Claims -/

/-- C1: for every detected input, configured keyword list and cap, and for
every domain group of the run, the selected e-mails of that domain
together with its skipped e-mails are exactly the domain's unique
addresses, and the two sets are disjoint. -/
theorem selected_union_skipped (found keywords : List Str) (cap : Int) (d : Str)
    (es : List Str) (_hmem : (d, es) ∈ groupByDomain (dedup found)) :
    (∀ e : Str, e ∈ (selectDomain keywords cap d es).1.map SelRow.Email ∨
        e ∈ (selectDomain keywords cap d es).2 ↔ e ∈ es)
    ∧ (∀ e : Str, e ∈ (selectDomain keywords cap d es).1.map SelRow.Email →
        e ∉ (selectDomain keywords cap d es).2) := by
  constructor
  · intro e
    rw [selectDomain_fst_map_email, selectDomain_snd]
    constructor
    · rintro (h | h)
      · exact mem_of_mem_topSelection _ _ _ _ h
      · exact List.mem_of_mem_filter h
    · intro he
      by_cases ht : e ∈ topSelection keywords cap es
      · exact Or.inl ht
      · exact Or.inr (List.mem_filter.mpr ⟨he, by simpa using ht⟩)
  · intro e h1 h2
    rw [selectDomain_fst_map_email] at h1
    rw [selectDomain_snd] at h2
    have h3 := List.of_mem_filter h2
    simp only [decide_eq_true_eq] at h3
    exact h3 h1

/-- Witness for C1 at a concrete run. -/
theorem selected_union_skipped_witness :
    (("x.com".toList, ["a@x.com".toList]) ∈ groupByDomain (dedup ["a@x.com".toList]))
    ∧ ((∀ e : Str, e ∈ (selectDomain [] 5 "x.com".toList ["a@x.com".toList]).1.map
          SelRow.Email ∨
          e ∈ (selectDomain [] 5 "x.com".toList ["a@x.com".toList]).2 ↔
          e ∈ ["a@x.com".toList])
      ∧ (∀ e : Str, e ∈ (selectDomain [] 5 "x.com".toList ["a@x.com".toList]).1.map
          SelRow.Email →
          e ∉ (selectDomain [] 5 "x.com".toList ["a@x.com".toList]).2)) :=
  ⟨by decide, selected_union_skipped ["a@x.com".toList] [] 5 _ _ (by decide)⟩

/-- C3: the deduplicator maps the detector's ordered sequence to the
sequence of unique lower-cased addresses in order of first appearance:
lower-case everything, then keep the first occurrence of each value
(`firstSeen`); the output is duplicate-free and contains exactly the
lower-casings of the detected entries. -/
theorem dedup_first_appearance (l : List Str) :
    dedup l = firstSeen (l.map pyLower)
    ∧ (dedup l).Nodup
    ∧ (∀ s : Str, s ∈ dedup l ↔ ∃ e ∈ l, pyLower e = s) :=
  ⟨dedup_eq_firstSeen l, dedup_nodup l, mem_dedup l⟩

/-- C8: the deduplicator is idempotent: running it on its own output
returns that output unchanged. -/
theorem dedup_idempotent (l : List Str) : dedup (dedup l) = dedup l := by
  rw [dedup_eq_firstSeen (dedup l)]
  have h1 : (dedup l).map pyLower = (dedup l).map id :=
    List.map_congr_left fun s hs => pyLower_of_mem_dedup l s hs
  rw [h1, List.map_id, firstSeen_of_nodup _ (dedup_nodup l)]

/-- C4: for every run and every domain group, at most `max_per_domain`
entries are selected for that domain. -/
theorem cap_respected (found keywords : List Str) (cap : Int) (d : Str)
    (es : List Str) (_hmem : (d, es) ∈ groupByDomain (dedup found)) (hcap : 0 ≤ cap) :
    ((selectDomain keywords cap d es).1).length ≤ cap.toNat := by
  have h1 : ((selectDomain keywords cap d es).1).length =
      (topSelection keywords cap es).length := by
    rw [← selectDomain_fst_map_email keywords cap d es, List.length_map]
  rw [h1, topSelection, pyTake_of_nonneg hcap]
  exact List.length_take_le _ _

/-- Witness for C4 at a concrete run. -/
theorem cap_respected_witness :
    (("x.com".toList, ["a@x.com".toList, "b@x.com".toList]) ∈
      groupByDomain (dedup ["a@x.com".toList, "b@x.com".toList]))
    ∧ (0 : Int) ≤ 1
    ∧ ((selectDomain [] 1 "x.com".toList ["a@x.com".toList, "b@x.com".toList]).1).length ≤
        (1 : Int).toNat :=
  ⟨by decide, by decide,
    cap_respected ["a@x.com".toList, "b@x.com".toList] [] 1 _ _ (by decide) (by decide)⟩

/-- C5: when a domain's priority partition already has at least
`max_per_domain` entries, every selected entry of that domain is a
priority entry, and the selected e-mails are in ascending order of
string length. -/
theorem priority_precedence (keywords : List Str) (cap : Int) (d : Str) (es : List Str)
    (hcap : 0 ≤ cap) (hge : cap.toNat ≤ (priorityPart keywords es).length) :
    (∀ r ∈ (selectDomain keywords cap d es).1, r.Email ∈ priorityPart keywords es)
    ∧ List.Pairwise (fun a b : Str => a.length ≤ b.length)
        ((selectDomain keywords cap d es).1.map SelRow.Email) := by
  have hmap := selectDomain_fst_map_email keywords cap d es
  have htop : topSelection keywords cap es =
      ((priorityPart keywords es).insertionSort lenLe).take cap.toNat := by
    rw [topSelection, pyTake_of_nonneg hcap, List.take_append_of_le_length]
    rw [List.length_insertionSort]; exact hge
  constructor
  · intro r hr
    have hre : r.Email ∈ topSelection keywords cap es := by
      rw [← hmap]; exact List.mem_map_of_mem SelRow.Email hr
    rw [htop] at hre
    exact (List.mem_insertionSort _).mp ((List.take_sublist _ _).subset hre)
  · rw [hmap, htop]
    exact List.Pairwise.sublist (List.take_sublist _ _) (List.sorted_insertionSort lenLe _)

/-- Witness for C5 at a concrete run. -/
theorem priority_precedence_witness :
    (0 : Int) ≤ 1
    ∧ (1 : Int).toNat ≤ (priorityPart ["ceo".toList]
        ["ceo@x.com".toList, "xceo@x.com".toList]).length
    ∧ ((∀ r ∈ (selectDomain ["ceo".toList] 1 "x.com".toList
          ["ceo@x.com".toList, "xceo@x.com".toList]).1,
          r.Email ∈ priorityPart ["ceo".toList] ["ceo@x.com".toList, "xceo@x.com".toList])
      ∧ List.Pairwise (fun a b : Str => a.length ≤ b.length)
          ((selectDomain ["ceo".toList] 1 "x.com".toList
            ["ceo@x.com".toList, "xceo@x.com".toList]).1.map SelRow.Email)) :=
  ⟨by decide, by decide,
    priority_precedence ["ceo".toList] 1 "x.com".toList
      ["ceo@x.com".toList, "xceo@x.com".toList] (by decide) (by decide)⟩

/-- C2: per domain the selector partitions the addresses into priority
and others (order-preserving), sorts priority ascending by length with a
stable sort (the subsequence of each fixed length is preserved), sorts
others ascending lexicographically, selects the first `max_per_domain`
entries of priority-then-others, and skips the remaining addresses in
the domain's original order. -/
theorem selector_algorithm_spec (keywords : List Str) (cap : Int) (d : Str)
    (es : List Str) (hcap : 0 ≤ cap) :
    ∃ sp so : List Str,
      sp.Perm (priorityPart keywords es)
      ∧ List.Pairwise (fun a b : Str => a.length ≤ b.length) sp
      ∧ (∀ n : Nat, sp.filter (fun s => decide (s.length = n)) =
          (priorityPart keywords es).filter (fun s => decide (s.length = n)))
      ∧ so.Perm (othersPart keywords es)
      ∧ List.Pairwise strLe so
      ∧ (selectDomain keywords cap d es).1.map SelRow.Email = (sp ++ so).take cap.toNat
      ∧ (selectDomain keywords cap d es).2 =
          es.filter (fun e => decide (e ∉ (sp ++ so).take cap.toNat)) := by
  haveI : IsTotal Str strLe := ⟨fun a b => strLeB_total a b⟩
  haveI : IsTrans Str strLe := ⟨fun a b c => strLeB_trans a b c⟩
  refine ⟨(priorityPart keywords es).insertionSort lenLe,
    (othersPart keywords es).insertionSort strLe, ?_, ?_, ?_, ?_, ?_, ?_, ?_⟩
  · exact List.perm_insertionSort _ _
  · exact List.sorted_insertionSort lenLe _
  · exact fun n => filter_len_insertionSort n _
  · exact List.perm_insertionSort _ _
  · exact List.sorted_insertionSort strLe _
  · rw [selectDomain_fst_map_email, topSelection, pyTake_of_nonneg hcap]
  · rw [selectDomain_snd, topSelection, pyTake_of_nonneg hcap]

/-- Witness for C2 at a concrete run. -/
theorem selector_algorithm_spec_witness :
    (0 : Int) ≤ 1
    ∧ (∃ sp so : List Str,
      sp.Perm (priorityPart ["ceo".toList] ["ceo@x.com".toList, "bob@x.com".toList])
      ∧ List.Pairwise (fun a b : Str => a.length ≤ b.length) sp
      ∧ (∀ n : Nat, sp.filter (fun s => decide (s.length = n)) =
          (priorityPart ["ceo".toList] ["ceo@x.com".toList, "bob@x.com".toList]).filter
            (fun s => decide (s.length = n)))
      ∧ so.Perm (othersPart ["ceo".toList] ["ceo@x.com".toList, "bob@x.com".toList])
      ∧ List.Pairwise strLe so
      ∧ (selectDomain ["ceo".toList] 1 "x.com".toList
          ["ceo@x.com".toList, "bob@x.com".toList]).1.map SelRow.Email =
          (sp ++ so).take (1 : Int).toNat
      ∧ (selectDomain ["ceo".toList] 1 "x.com".toList
          ["ceo@x.com".toList, "bob@x.com".toList]).2 =
          ["ceo@x.com".toList, "bob@x.com".toList].filter
            (fun e => decide (e ∉ (sp ++ so).take (1 : Int).toNat))) :=
  ⟨by decide,
    selector_algorithm_spec ["ceo".toList] 1 "x.com".toList
      ["ceo@x.com".toList, "bob@x.com".toList] (by decide)⟩

/-! ## Tagging of selected rows -/

/-- Any row of the aggregated selection comes from the selection of one of
the domain groups. -/
theorem mem_runSelection_fst (keywords : List Str) (cap : Int)
    (groups : List (Str × List Str)) (r : SelRow)
    (h : r ∈ (runSelection keywords cap groups).1) :
    ∃ g ∈ groups, r ∈ (selectDomain keywords cap g.1 g.2).1 := by
  induction groups with
  | nil => simp [runSelection] at h
  | cons g rest ih =>
    simp only [runSelection, List.mem_append] at h
    rcases h with h | h
    · exact ⟨g, List.mem_cons_self _ _, h⟩
    · rcases ih h with ⟨g', hg', hr⟩
      exact ⟨g', List.mem_cons_of_mem _ hg', hr⟩

/-- A selected row's tag is determined by the keyword test on its e-mail. -/
theorem selectDomain_row_typ (keywords : List Str) (cap : Int) (d : Str)
    (es : List Str) (r : SelRow) (h : r ∈ (selectDomain keywords cap d es).1) :
    r.Typ = if isPriority keywords r.Email then "🎯 Match" else "✉️ General" := by
  rw [selectDomain_eq] at h
  rcases List.mem_map.mp h with ⟨s, hs, rfl⟩
  have hmem : s ∈ (priorityPart keywords es).insertionSort lenLe ↔
      isPriority keywords s = true := by
    rw [List.mem_insertionSort]
    constructor
    · exact fun hm => (List.mem_filter.mp hm).2
    · intro hp
      exact List.mem_filter.mpr ⟨mem_of_mem_topSelection _ _ _ _ hs, hp⟩
  by_cases hp : isPriority keywords s = true
  · simp only [hp, if_pos (hmem.mpr hp), if_pos]
  · have : s ∉ (priorityPart keywords es).insertionSort lenLe := fun hc => hp (hmem.mp hc)
    simp only [if_neg this]
    simp [hp]

/-- C6 (counterexample): the selected rows carry domain, e-mail and type
fields, but the type strings the code emits are `"🎯 Match"` and
`"✉️ General"`, not `"priority"` and `"general"` as the claim states. -/
theorem selected_type_string_counterexample :
    (runExtraction ["ceo@x.com".toList] ["ceo".toList] 1).1.map SelRow.Typ = ["🎯 Match"]
    ∧ "🎯 Match" ≠ "priority" ∧ "🎯 Match" ≠ "general" := by
  refine ⟨by decide, by decide, by decide⟩

/-- C6 (amended): every entry of the selected output is a record with
domain, e-mail and type fields, and the type is the string `"🎯 Match"`
exactly when the e-mail satisfies the keyword test (i.e. lies in the
unsorted priority partition of its domain) and `"✉️ General"` otherwise. -/
theorem selected_rows_tagged (found keywords : List Str) (cap : Int) :
    ∀ r ∈ (runExtraction found keywords cap).1,
      r.Typ = if isPriority keywords r.Email then "🎯 Match" else "✉️ General" := by
  intro r hr
  rcases mem_runSelection_fst keywords cap _ r hr with ⟨g, _, hsel⟩
  exact selectDomain_row_typ keywords cap g.1 g.2 r hsel

/-- Witness for the amended C6 at a concrete run. -/
theorem selected_rows_tagged_witness :
    ({ Domain := "x.com".toList, Email := "ceo@x.com".toList, Typ := "🎯 Match" : SelRow } ∈
      (runExtraction ["ceo@x.com".toList] ["ceo".toList] 1).1)
    ∧ ({ Domain := "x.com".toList, Email := "ceo@x.com".toList, Typ := "🎯 Match" : SelRow }.Typ =
        if isPriority ["ceo".toList]
            ({ Domain := "x.com".toList, Email := "ceo@x.com".toList,
               Typ := "🎯 Match" : SelRow }).Email
          then "🎯 Match" else "✉️ General") :=
  ⟨by decide,
    selected_rows_tagged ["ceo@x.com".toList] ["ceo".toList] 1 _ (by decide)⟩

/-! ## Grouping: malformed entries and group contents -/

/-- The grouping loop skips an entry without `@` entirely. -/
theorem groupLoop_skips (e : Str) (he : hasAt e = false) (l1 l2 : List Str) :
    ∀ acc, groupLoop acc (l1 ++ e :: l2) = groupLoop acc (l1 ++ l2) := by
  induction l1 with
  | nil =>
    intro acc
    simp only [List.nil_append, groupLoop, splitDomain_eq_none e he]
  | cons x l1 ih =>
    intro acc
    simp only [List.cons_append, groupLoop]
    cases splitDomain x with
    | none => exact ih acc
    | some d => exact ih (addToGroup acc d x)

/-- Case analysis for membership in `addToGroup`. -/
theorem mem_addToGroup_cases (acc : List (Str × List Str)) (d0 e d : Str) (es : List Str)
    (h : (d, es) ∈ addToGroup acc d0 e) :
    (d, es) ∈ acc ∨ (d = d0 ∧ es = [e]) ∨
      ∃ es0, (d, es0) ∈ acc ∧ d = d0 ∧ es = es0 ++ [e] := by
  induction acc with
  | nil =>
    simp only [addToGroup, List.mem_singleton, Prod.mk.injEq] at h
    exact Or.inr (Or.inl ⟨h.1, h.2⟩)
  | cons g rest ih =>
    obtain ⟨d', es'⟩ := g
    by_cases hd : d' = d0
    · subst hd
      have hstep : addToGroup ((d', es') :: rest) d' e = (d', es' ++ [e]) :: rest := by
        simp [addToGroup]
      rw [hstep] at h
      rcases List.mem_cons.mp h with heq | hm2
      · rw [Prod.mk.injEq] at heq
        obtain ⟨h1, h2⟩ := heq
        subst h1; subst h2
        exact Or.inr (Or.inr ⟨es', List.mem_cons_self _ _, rfl, rfl⟩)
      · exact Or.inl (List.mem_cons_of_mem _ hm2)
    · have hstep : addToGroup ((d', es') :: rest) d0 e = (d', es') :: addToGroup rest d0 e := by
        simp [addToGroup, hd]
      rw [hstep] at h
      rcases List.mem_cons.mp h with heq | hm2
      · exact Or.inl (heq ▸ List.mem_cons_self _ _)
      · rcases ih hm2 with h' | h' | ⟨es0, hm, hd0, hes⟩
        · exact Or.inl (List.mem_cons_of_mem _ h')
        · exact Or.inr (Or.inl h')
        · exact Or.inr (Or.inr ⟨es0, List.mem_cons_of_mem _ hm, hd0, hes⟩)

/-- Every address stored in a group contains `@`. -/
theorem groupLoop_mem_hasAt (l : List Str) : ∀ acc : List (Str × List Str),
    (∀ d es, (d, es) ∈ acc → ∀ x ∈ es, hasAt x = true) →
    ∀ d es, (d, es) ∈ groupLoop acc l → ∀ x ∈ es, hasAt x = true := by
  induction l with
  | nil => intro acc hacc; simpa [groupLoop] using hacc
  | cons e rest ih =>
    intro acc hacc
    cases hs : splitDomain e with
    | none =>
      simp only [groupLoop, hs]
      exact ih acc hacc
    | some d0 =>
      simp only [groupLoop, hs]
      apply ih (addToGroup acc d0 e)
      intro d es hmem x hx
      rcases mem_addToGroup_cases acc d0 e d es hmem with h | ⟨_, hes⟩ | ⟨es0, hm, _, hes⟩
      · exact hacc d es h x hx
      · subst hes
        exact (List.mem_singleton.mp hx) ▸ hasAt_of_splitDomain_some e d0 hs
      · subst hes
        rcases List.mem_append.mp hx with hx | hx
        · exact hacc d es0 hm x hx
        · exact (List.mem_singleton.mp hx) ▸ hasAt_of_splitDomain_some e d0 hs

/-- C7: an entry with no `@` reaching the grouper is silently excluded:
the grouping (and with it the domain-order list) is exactly the grouping
of the remaining entries, the entry appears in no domain group, and no
failure is propagated (the grouper is a total function that completes on
the rest). -/
theorem grouper_skips_malformed (l1 l2 : List Str) (e : Str) (he : hasAt e = false) :
    groupByDomain (l1 ++ e :: l2) = groupByDomain (l1 ++ l2)
    ∧ ∀ d es, (d, es) ∈ groupByDomain (l1 ++ e :: l2) → e ∉ es := by
  constructor
  · exact groupLoop_skips e he l1 l2 []
  · intro d es hmem hx
    have h1 := groupLoop_mem_hasAt (l1 ++ e :: l2) [] (by simp) d es hmem e hx
    rw [he] at h1
    exact Bool.noConfusion h1

/-- Witness for C7 at a concrete input. -/
theorem grouper_skips_malformed_witness :
    hasAt "nodomain".toList = false
    ∧ (groupByDomain (["a@x.com".toList] ++ "nodomain".toList :: ["b@y.org".toList]) =
        groupByDomain (["a@x.com".toList] ++ ["b@y.org".toList])
      ∧ ∀ d es, (d, es) ∈ groupByDomain
          (["a@x.com".toList] ++ "nodomain".toList :: ["b@y.org".toList]) →
          "nodomain".toList ∉ es) :=
  ⟨by decide, grouper_skips_malformed ["a@x.com".toList] ["b@y.org".toList] _ (by decide)⟩

/-- C9 (counterexample): the core neither clamps nor rejects an
out-of-range cap: with one address, cap `0` selects nothing while the
nearest in-range cap `1` selects the address, so the selection silently
differs. -/
theorem cap_no_clamp_counterexample :
    (runExtraction ["a@x.com".toList] [] 0).1 = []
    ∧ (runExtraction ["a@x.com".toList] [] 1).1 ≠ [] := by
  refine ⟨by decide, by decide⟩

/-- How many rows a domain selects, as a function of the cap and the
domain's address count (Python slice semantics). -/
theorem selectDomain_fst_length (keywords : List Str) (cap : Int) (d : Str) (es : List Str) :
    ((selectDomain keywords cap d es).1).length =
      if 0 ≤ cap then min cap.toNat es.length else es.length - (-cap).toNat := by
  have h1 : ((selectDomain keywords cap d es).1).length =
      (topSelection keywords cap es).length := by
    rw [← selectDomain_fst_map_email keywords cap d es, List.length_map]
  by_cases hc : 0 ≤ cap
  · rw [h1, topSelection, pyTake_of_nonneg hc, if_pos hc, List.length_take, parts_length]
  · rw [h1, topSelection, pyTake, if_neg hc, if_neg hc, List.length_take, parts_length]
    exact Nat.min_eq_left (Nat.sub_le _ _)

/-- C9 (amended): the core applies the configured cap directly as a
Python slice bound, with no clamping and no rejection: for a nonnegative
cap a domain with `n` addresses selects `min cap n` of them, and for a
negative cap `-k` it selects `n - k` (truncated at zero). -/
theorem cap_slice_semantics (keywords : List Str) (cap : Int) (d : Str) (es : List Str) :
    ((selectDomain keywords cap d es).1).length =
      if 0 ≤ cap then min cap.toNat es.length else es.length - (-cap).toNat :=
  selectDomain_fst_length keywords cap d es

/-! ## Counting -/

/-- Adding an address to its group grows the total by one. -/
theorem groupsSize_addToGroup (acc : List (Str × List Str)) (d e : Str) :
    groupsSize (addToGroup acc d e) = groupsSize acc + 1 := by
  induction acc with
  | nil => simp [addToGroup, groupsSize]
  | cons g rest ih =>
    obtain ⟨d', es'⟩ := g
    by_cases hd : d' = d
    · subst hd
      simp [addToGroup, groupsSize]
      omega
    · simp only [addToGroup, if_neg hd, groupsSize, List.map_cons, List.sum_cons] at ih ⊢
      omega

/-- The grouping loop stores exactly the entries whose `split('@')[1]`
exists. -/
theorem groupsSize_groupLoop (l : List Str) : ∀ acc,
    groupsSize (groupLoop acc l) =
      groupsSize acc + l.countP (fun e => (splitDomain e).isSome) := by
  induction l with
  | nil => intro acc; simp [groupLoop]
  | cons e rest ih =>
    intro acc
    cases hs : splitDomain e with
    | none =>
      simp only [groupLoop, hs]
      rw [ih acc, List.countP_cons]
      simp [hs]
    | some d0 =>
      simp only [groupLoop, hs]
      rw [ih (addToGroup acc d0 e), groupsSize_addToGroup, List.countP_cons]
      simp only [hs, Option.isSome_some, if_pos]
      omega

/-- Groups built from a duplicate-free list are duplicate-free. -/
theorem groupLoop_nodup (l : List Str) : ∀ acc : List (Str × List Str),
    l.Nodup →
    (∀ d es, (d, es) ∈ acc → es.Nodup) →
    (∀ d es, (d, es) ∈ acc → ∀ x ∈ es, x ∉ l) →
    ∀ d es, (d, es) ∈ groupLoop acc l → es.Nodup := by
  induction l with
  | nil =>
    intro acc _ hnd _ d es hmem
    simp only [groupLoop] at hmem
    exact hnd d es hmem
  | cons e rest ih =>
    intro acc hl hnd hdisj
    have hl' : rest.Nodup := (List.nodup_cons.mp hl).2
    have he : e ∉ rest := (List.nodup_cons.mp hl).1
    cases hs : splitDomain e with
    | none =>
      simp only [groupLoop, hs]
      apply ih acc hl' hnd
      intro d es hmem x hx hr
      exact hdisj d es hmem x hx (List.mem_cons_of_mem _ hr)
    | some d0 =>
      simp only [groupLoop, hs]
      apply ih (addToGroup acc d0 e) hl'
      · intro d es hmem
        rcases mem_addToGroup_cases acc d0 e d es hmem with hm | ⟨_, hes⟩ | ⟨es0, hm, _, hes⟩
        · exact hnd d es hm
        · subst hes; exact List.nodup_singleton e
        · subst hes
          rw [List.nodup_append]
          refine ⟨hnd d es0 hm, List.nodup_singleton e, ?_⟩
          intro x hx0 hxe
          rw [List.mem_singleton] at hxe
          subst hxe
          exact hdisj d es0 hm x hx0 (List.mem_cons_self _ _)
      · intro d es hmem x hx
        rcases mem_addToGroup_cases acc d0 e d es hmem with hm | ⟨_, hes⟩ | ⟨es0, hm, _, hes⟩
        · exact fun hr => hdisj d es hm x hx (List.mem_cons_of_mem _ hr)
        · subst hes
          rw [List.mem_singleton] at hx
          subst hx; exact he
        · subst hes
          rcases List.mem_append.mp hx with hx | hx
          · exact fun hr => hdisj d es0 hm x hx (List.mem_cons_of_mem _ hr)
          · rw [List.mem_singleton] at hx
            subst hx; exact he

/-- Per domain, selected and skipped counts add up to the domain's
address count (the domain's addresses are duplicate-free). -/
theorem selectDomain_length_split (keywords : List Str) (cap : Int) (d : Str)
    (es : List Str) (hnd : es.Nodup) :
    ((selectDomain keywords cap d es).1).length + ((selectDomain keywords cap d es).2).length
      = es.length := by
  have h1 : ((selectDomain keywords cap d es).1).length =
      (topSelection keywords cap es).length := by
    rw [← selectDomain_fst_map_email keywords cap d es, List.length_map]
  have hperm : ((priorityPart keywords es).insertionSort lenLe ++
      (othersPart keywords es).insertionSort strLe).Perm es := by
    have h2 := List.filter_append_perm (isPriority keywords) es
    exact ((List.perm_insertionSort _ _).append (List.perm_insertionSort _ _)).trans h2
  have htopsub : ∀ x ∈ topSelection keywords cap es, x ∈ es :=
    fun x hx => mem_of_mem_topSelection _ _ _ _ hx
  have htopnd : (topSelection keywords cap es).Nodup :=
    (pyTake_sublist _ _).nodup (hperm.nodup_iff.mpr hnd)
  have hperm2 : (es.filter (fun e => decide (e ∈ topSelection keywords cap es))).Perm
      (topSelection keywords cap es) := by
    apply (List.perm_ext_iff_of_nodup (hnd.filter _) htopnd).mpr
    intro x
    simp only [List.mem_filter, decide_eq_true_eq]
    exact ⟨fun hx => hx.2, fun hx => ⟨htopsub x hx, hx⟩⟩
  have hsplit : (es.filter (fun e => decide (e ∈ topSelection keywords cap es))).length +
      (es.filter (fun e => !(decide (e ∈ topSelection keywords cap es)))).length
      = es.length := by
    have h3 := (List.filter_append_perm
      (fun e => decide (e ∈ topSelection keywords cap es)) es).length_eq
    simpa [List.length_append] using h3
  have hpred : (fun e => decide (e ∉ topSelection keywords cap es)) =
      (fun e => !(decide (e ∈ topSelection keywords cap es))) := by
    funext e; simp [decide_not]
  rw [selectDomain_snd, h1, hpred]
  have h4 := hperm2.length_eq
  omega

/-- Selected plus skipped counts over the whole run equal the total
stored in the groups. -/
theorem runSelection_length_split (keywords : List Str) (cap : Int) :
    ∀ gs : List (Str × List Str),
      (∀ d es, (d, es) ∈ gs → es.Nodup) →
      (runSelection keywords cap gs).1.length + (runSelection keywords cap gs).2.length
        = groupsSize gs := by
  intro gs
  induction gs with
  | nil => intro _; simp [runSelection, groupsSize]
  | cons g rest ih =>
    intro hnd
    obtain ⟨d, es⟩ := g
    simp only [runSelection, List.length_append]
    have h1 := selectDomain_length_split keywords cap d es (hnd d es (List.mem_cons_self _ _))
    have h2 := ih (fun d' es' hm => hnd d' es' (List.mem_cons_of_mem _ hm))
    simp only [groupsSize, List.map_cons, List.sum_cons] at h2 ⊢
    omega

/-- C10: with a nonnegative cap and detector-shaped input (every entry
contains `@`), each domain selects `min cap n` of its `n` unique
addresses, and the summary counts satisfy
selected_count + skipped_count = unique_total. -/
theorem counts_add_up (found keywords : List Str) (cap : Int)
    (hcap : 0 ≤ cap) (hall : ∀ e ∈ found, hasAt e = true) :
    (∀ d es, (d, es) ∈ groupByDomain (dedup found) →
        ((selectDomain keywords cap d es).1).length = min cap.toNat es.length)
    ∧ selectedCount found keywords cap + skippedCount found keywords cap
        = uniqueTotal found := by
  constructor
  · intro d es _
    rw [selectDomain_fst_length, if_pos hcap]
  · have hnodup : ∀ d es, (d, es) ∈ groupByDomain (dedup found) → es.Nodup :=
      fun d es hm =>
        groupLoop_nodup (dedup found) [] (dedup_nodup found) (by simp) (by simp) d es hm
    have h1 := runSelection_length_split keywords cap (groupByDomain (dedup found)) hnodup
    have h2 : groupsSize (groupByDomain (dedup found)) = (dedup found).length := by
      rw [groupByDomain, groupsSize_groupLoop]
      simp only [groupsSize, List.map_nil, List.sum_nil, Nat.zero_add]
      apply List.countP_eq_length.mpr
      intro e he
      rcases (mem_dedup found e).mp he with ⟨e0, he0, hlow⟩
      have h3 := hasAt_pyLower e0 (hall e0 he0)
      rw [hlow] at h3
      exact splitDomain_isSome e h3
    rw [selectedCount, skippedCount, uniqueTotal, runExtraction, ← h2]
    exact h1

/-- Witness for C10 at a concrete run. -/
theorem counts_add_up_witness :
    (0 : Int) ≤ 1
    ∧ (∀ e ∈ [ "a@x.com".toList, "b@x.com".toList, "c@y.org".toList], hasAt e = true)
    ∧ ((∀ d es, (d, es) ∈ groupByDomain
          (dedup ["a@x.com".toList, "b@x.com".toList, "c@y.org".toList]) →
          ((selectDomain [] 1 d es).1).length = min (1 : Int).toNat es.length)
      ∧ selectedCount ["a@x.com".toList, "b@x.com".toList, "c@y.org".toList] [] 1 +
          skippedCount ["a@x.com".toList, "b@x.com".toList, "c@y.org".toList] [] 1
        = uniqueTotal ["a@x.com".toList, "b@x.com".toList, "c@y.org".toList]) :=
  ⟨by decide, by decide,
    counts_add_up ["a@x.com".toList, "b@x.com".toList, "c@y.org".toList] [] 1
      (by decide) (by decide)⟩
